import Mathlib

/-!
Verification of the intraday fund valuation estimator
(`fund_valuation_tracker/calculator.py`).

The embedding models the Python class `FundValuationCalculator`:
* pandas DataFrame `holdings_data` with columns 股票代码 (stock code) and
  持仓占比 (holding weight, percent) becomes a `List Holding`, iterated in
  order exactly as `iterrows` does;
* the dicts `prev_close_dict`, `intraday_klines`, `price_map`,
  `filled_prices` and `stock_price_map` become association lists read
  through `dictGet` (first matching key wins, as Python dict keys are
  unique);
* Python floats become `ℚ` (exact arithmetic, the spec's reading);
* timestamps are opaque sortable tokens, embedded as `ℕ`;
* `round(x, 4)` becomes `round4`, rounding half to even as Python does.
-/

/-- Timestamps are opaque comparable/sortable/hashable tokens. -/
abbrev Time := Nat

/-- One intraday sample `{time, price}` of one security. -/
structure Kline where
  time : Time
  price : ℚ
deriving DecidableEq

/-- One row of the holdings DataFrame: (股票代码, 持仓占比). -/
structure Holding where
  stock_code : String
  holding_ratio : ℚ
deriving DecidableEq

/-- One output point `{time, valuation_change}`. -/
structure ValuationPoint where
  time : Time
  valuation_change : ℚ
deriving DecidableEq

/-- The dict returned by `get_summary_stats` on non-empty input. -/
structure SummaryStats where
  current : ℚ
  max : ℚ
  min : ℚ
  max_time : Time
  min_time : Time
deriving DecidableEq

/-- Python `d.get(key)` on a dict modelled as an association list:
the first matching key wins (keys of a real dict are unique). -/
def dictGet {κ α : Type} [DecidableEq κ] : List (κ × α) → κ → Option α
  | [], _ => none
  | (k, v) :: rest, key => if k = key then some v else dictGet rest key

/-- State of `FundValuationCalculator.__init__`: the three stored inputs.
`scale_factor` is computed from them below, as the constructor does. -/
structure FundValuationCalculator where
  holdings_data : List Holding
  prev_close_dict : List (String × ℚ)
  stock_position_ratio : ℚ

/-- `holdings_data['持仓占比'].sum()`. -/
def total_holdings (c : FundValuationCalculator) : ℚ :=
  (c.holdings_data.map Holding.holding_ratio).sum

/-- `self.scale_factor = stock_position_ratio / total_holdings if total_holdings > 0 else 0`. -/
def scale_factor (c : FundValuationCalculator) : ℚ :=
  if 0 < total_holdings c then c.stock_position_ratio / total_holdings c else 0

/-- `calculate_stock_return`: previous close absent or equal to zero gives
0.0, otherwise `(current_price - prev_close) / prev_close * 100`. -/
def calculate_stock_return (c : FundValuationCalculator)
    (stock_code : String) (current_price : ℚ) : ℚ :=
  match dictGet c.prev_close_dict stock_code with
  | none => 0
  | some prev_close =>
      if prev_close = 0 then 0
      else (current_price - prev_close) / prev_close * 100

/-- Step 1 of `calculate_fund_valuation`: `sorted(list(all_times))` where
`all_times` is the set of times of all klines of all securities. -/
def all_times (intraday_klines : List (String × List Kline)) : List Time :=
  (((intraday_klines.map Prod.snd).flatten.map Kline.time).dedup).insertionSort (· ≤ ·)

/-- The dict `price_map` built by `price_map[kline['time']] = kline['price']`
over the klines in order: the last kline with the given time wins. -/
def price_map : List Kline → Time → Option ℚ
  | [], _ => none
  | k :: rest, t =>
      match price_map rest t with
      | some p => some p
      | none => if k.time = t then some k.price else none

/-- The `filled_prices` loop: walk the canonical times carrying
`current_price`, updating it whenever `time_point in price_map`. -/
def filled_prices (pm : Time → Option ℚ) : ℚ → List Time → List (Time × ℚ)
  | _, [] => []
  | current_price, t :: ts =>
      (t, (pm t).getD current_price) :: filled_prices pm ((pm t).getD current_price) ts

/-- The `filled_prices` dict of one security: initial state is
`prev_close_dict.get(stock_code, 0)`. -/
def stock_filled_prices (c : FundValuationCalculator) (times : List Time)
    (stock_code : String) (klines : List Kline) : List (Time × ℚ) :=
  filled_prices (price_map klines) ((dictGet c.prev_close_dict stock_code).getD 0) times

/-- Step 2 of `calculate_fund_valuation`: `stock_price_map`, one filled
dict per security appearing in `intraday_klines`. -/
def stock_price_map (c : FundValuationCalculator)
    (intraday_klines : List (String × List Kline)) : List (String × List (Time × ℚ)) :=
  intraday_klines.map fun p =>
    (p.1, stock_filled_prices c (all_times intraday_klines) p.1 p.2)

/-- `stock_price_map.get(stock_code, {}).get(time_point, 0)`. -/
def price_at (c : FundValuationCalculator)
    (intraday_klines : List (String × List Kline)) (stock_code : String) (t : Time) : ℚ :=
  (dictGet ((dictGet (stock_price_map c intraday_klines) stock_code).getD []) t).getD 0

/-- The summand added for one holdings row at one time point:
`stock_return * holding_ratio * self.scale_factor / 100`. -/
def security_contribution (c : FundValuationCalculator)
    (intraday_klines : List (String × List Kline))
    (stock_code : String) (holding_ratio : ℚ) (t : Time) : ℚ :=
  calculate_stock_return c stock_code (price_at c intraday_klines stock_code t) *
    holding_ratio * scale_factor c / 100

/-- The `weighted_return` accumulated over `holdings_data.iterrows()`. -/
def weighted_return_at (c : FundValuationCalculator)
    (intraday_klines : List (String × List Kline)) (t : Time) : ℚ :=
  c.holdings_data.foldl
    (fun acc row => acc + security_contribution c intraday_klines row.stock_code row.holding_ratio t) 0

/-- Python's banker's rounding of a rational to the nearest integer. -/
def round_half_even (x : ℚ) : ℤ :=
  let f := ⌊x⌋
  let r := x - f
  if r < 1 / 2 then f
  else if 1 / 2 < r then f + 1
  else if f % 2 = 0 then f else f + 1

/-- `round(x, 4)`. -/
def round4 (x : ℚ) : ℚ := (round_half_even (x * 10000) : ℚ) / 10000

/-- Step 3 of `calculate_fund_valuation`: one `{time, valuation_change}`
per canonical time, value rounded to 4 decimals. -/
def calculate_fund_valuation (c : FundValuationCalculator)
    (intraday_klines : List (String × List Kline)) : List ValuationPoint :=
  (all_times intraday_klines).map fun t => ⟨t, round4 (weighted_return_at c intraday_klines t)⟩

/-- `get_summary_stats`: `{}` on empty input, else current/max/min and the
times found by `changes.index(...)`, i.e. first occurrence. -/
def get_summary_stats : List ValuationPoint → Option SummaryStats
  | [] => none
  | p :: ps =>
      let valuation_data := p :: ps
      let changes := valuation_data.map ValuationPoint.valuation_change
      let mx := (ps.map ValuationPoint.valuation_change).foldl max p.valuation_change
      let mn := (ps.map ValuationPoint.valuation_change).foldl min p.valuation_change
      some
        { current := (ps.map ValuationPoint.valuation_change).getLastD p.valuation_change
          max := mx
          min := mn
          max_time := (valuation_data.getD (changes.findIdx fun x => x == mx) p).time
          min_time := (valuation_data.getD (changes.findIdx fun x => x == mn) p).time }

/-- Stock codes used in concrete instances. -/
def sA : String := "A"

def sB : String := "B"

/-! ## Shared helper lemmas -/

theorem round4_zero : round4 0 = 0 := by
  norm_num [round4, round_half_even]

/-! ## Per-security return (claim C2) -/

/-- Claim C2, counterexample: the code tests `prev_close == 0`, not
`prev_close <= 0`.  With previous close `-5` (present and strictly
negative) and current price `10`, the return is `-300`, not `0.0`. -/
theorem calculate_stock_return_neg_close_counterexample :
    dictGet (FundValuationCalculator.mk [] [(sA, -5)] 0).prev_close_dict sA = some (-5) ∧
      (-5 : ℚ) < 0 ∧
      calculate_stock_return ⟨[], [(sA, -5)], 0⟩ sA 10 = -300 ∧ (-300 : ℚ) ≠ 0 := by
  refine ⟨by norm_num [dictGet], by norm_num, ?_, by norm_num⟩
  norm_num [calculate_stock_return, dictGet]

/-- Claim C2 (amended): the per-security return is `0.0` exactly when the
previous close is absent or equal to `0`; for any other previous close —
including a strictly negative one — it is
`(current_price - prev_close) / prev_close * 100`. -/
theorem calculate_stock_return_amended (c : FundValuationCalculator)
    (stock_code : String) (current_price : ℚ) :
    (dictGet c.prev_close_dict stock_code = none →
        calculate_stock_return c stock_code current_price = 0) ∧
      ∀ p : ℚ, dictGet c.prev_close_dict stock_code = some p →
        (p = 0 → calculate_stock_return c stock_code current_price = 0) ∧
          (p ≠ 0 →
            calculate_stock_return c stock_code current_price =
              (current_price - p) / p * 100) := by
  unfold calculate_stock_return
  refine ⟨fun h => by rw [h], fun p hp => ⟨fun h0 => by rw [hp]; simp [h0], fun h0 => ?_⟩⟩
  rw [hp]
  simp [h0]

/-- Witness for the amended claim C2 at a concrete negative previous close. -/
theorem calculate_stock_return_amended_witness :
    calculate_stock_return ⟨[], [(sA, -5)], 0⟩ sA 10 = (10 - (-5)) / (-5) * 100 :=
  ((calculate_stock_return_amended ⟨[], [(sA, -5)], 0⟩ sA 10).2 (-5)
      (by norm_num [dictGet])).2 (by norm_num)

/-! ## Summary statistics on empty input (claim C8) -/

/-- Claim C8: the empty valuation series yields an absent stats result
(`{}` in the source, `none` here); the operation is total, so no
exception is possible. -/
theorem get_summary_stats_empty : get_summary_stats [] = none := rfl

/-! ## Empty holdings (claim C7) -/

/-- Claim C7: with an empty holdings collection the scale factor is `0`
(no division by zero happens: the total weight `0` takes the guarded
branch), and the output still has one point per canonical timestamp,
every point's value being `0.0`. -/
theorem calculate_fund_valuation_empty_holdings
    (prev_close_dict : List (String × ℚ)) (stock_position_ratio : ℚ)
    (intraday_klines : List (String × List Kline)) :
    scale_factor ⟨[], prev_close_dict, stock_position_ratio⟩ = 0 ∧
      calculate_fund_valuation ⟨[], prev_close_dict, stock_position_ratio⟩ intraday_klines =
        (all_times intraday_klines).map fun t => ⟨t, 0⟩ := by
  constructor
  · simp [scale_factor, total_holdings]
  · unfold calculate_fund_valuation
    refine List.map_congr_left fun t _ => ?_
    have hw : weighted_return_at ⟨[], prev_close_dict, stock_position_ratio⟩ intraday_klines t = 0 := by
      simp [weighted_return_at]
    rw [hw, round4_zero]

/-! ## Securities absent from the intraday map (claim C1) -/

theorem dictGet_map_entry {κ α β : Type} [DecidableEq κ]
    (f : κ → α → β) (l : List (κ × α)) (k : κ) :
    dictGet (l.map fun p => (p.1, f p.1 p.2)) k = (dictGet l k).map (f k) := by
  induction l with
  | nil => rfl
  | cons hd tl ih =>
      obtain ⟨k0, v⟩ := hd
      simp only [List.map_cons, dictGet]
      by_cases h : k0 = k
      · subst h
        simp
      · simp [h, ih]

theorem dictGet_stock_price_map (c : FundValuationCalculator)
    (intraday_klines : List (String × List Kline)) (stock_code : String) :
    dictGet (stock_price_map c intraday_klines) stock_code =
      (dictGet intraday_klines stock_code).map
        (stock_filled_prices c (all_times intraday_klines) stock_code) := by
  unfold stock_price_map
  exact dictGet_map_entry _ _ _

/-- Claim C1, counterexample: security `A` is held with weight `50` and has
previous close `10`, but is absent from the intraday map (`B` alone has a
sample, at time `1`).  `A`'s price is read as `0`, so its return is
`-100%` and its contribution at the output timestamp `1` is `-50`, not
`0.0`; the single output point is `(1, -50)`. -/
theorem absent_security_contribution_counterexample :
    dictGet ([(sB, [⟨1, 10⟩])] : List (String × List Kline)) sA = none ∧
      security_contribution ⟨[⟨sA, 50⟩], [(sA, 10)], 50⟩ [(sB, [⟨1, 10⟩])] sA 50 1 = -50 ∧
      calculate_fund_valuation ⟨[⟨sA, 50⟩], [(sA, 10)], 50⟩ [(sB, [⟨1, 10⟩])] = [⟨1, -50⟩] ∧
      (-50 : ℚ) ≠ 0 := by
  have hBA : ¬ sB = sA := by decide
  have ht : all_times [(sB, [⟨1, (10 : ℚ)⟩])] = [1] := by decide
  have hcontrib :
      security_contribution ⟨[⟨sA, 50⟩], [(sA, 10)], 50⟩ [(sB, [⟨1, 10⟩])] sA 50 1 = -50 := by
    norm_num [security_contribution, price_at, stock_price_map, stock_filled_prices,
      filled_prices, price_map, dictGet, calculate_stock_return, scale_factor,
      total_holdings, ht, hBA]
  refine ⟨by norm_num [dictGet, hBA], hcontrib, ?_, by norm_num⟩
  unfold calculate_fund_valuation
  rw [ht]
  have hw : weighted_return_at ⟨[⟨sA, 50⟩], [(sA, 10)], 50⟩ [(sB, [⟨1, 10⟩])] 1 = -50 := by
    simp only [weighted_return_at, List.foldl_cons, List.foldl_nil]
    rw [hcontrib]
    norm_num
  rw [List.map_cons, List.map_nil, hw]
  norm_num [round4, round_half_even]

/-- Claim C1 (amended): a security entirely absent from the intraday map
is priced `0` at every timestamp; it therefore contributes `0.0` when its
previous close is absent or `0`, but when a nonzero previous close is
known it contributes a `-100%` return, i.e.
`-(holding_ratio * scale_factor)`. -/
theorem security_contribution_absent_amended (c : FundValuationCalculator)
    (intraday_klines : List (String × List Kline)) (stock_code : String)
    (holding_ratio : ℚ) (t : Time)
    (habs : dictGet intraday_klines stock_code = none) :
    price_at c intraday_klines stock_code t = 0 ∧
      ((dictGet c.prev_close_dict stock_code = none ∨
          dictGet c.prev_close_dict stock_code = some 0) →
        security_contribution c intraday_klines stock_code holding_ratio t = 0) ∧
      ∀ p : ℚ, dictGet c.prev_close_dict stock_code = some p → p ≠ 0 →
        security_contribution c intraday_klines stock_code holding_ratio t =
          -(holding_ratio * scale_factor c) := by
  have hp : price_at c intraday_klines stock_code t = 0 := by
    unfold price_at
    rw [dictGet_stock_price_map, habs]
    rfl
  refine ⟨hp, fun h => ?_, fun p hsome hne => ?_⟩
  · unfold security_contribution
    rw [hp]
    unfold calculate_stock_return
    rcases h with h | h <;> rw [h] <;> simp
  · unfold security_contribution
    rw [hp]
    unfold calculate_stock_return
    rw [hsome]
    simp only [hne, if_false]
    rw [zero_sub, neg_div, div_self hne]
    ring

/-- Witness for the amended claim C1, at the counterexample input. -/
theorem security_contribution_absent_amended_witness :
    security_contribution ⟨[⟨sA, 50⟩], [(sA, 10)], 50⟩ [(sB, [⟨1, 10⟩])] sA 50 1 =
      -(50 * scale_factor ⟨[⟨sA, 50⟩], [(sA, 10)], 50⟩) :=
  (security_contribution_absent_amended ⟨[⟨sA, 50⟩], [(sA, 10)], 50⟩ [(sB, [⟨1, 10⟩])]
        sA 50 1 (by norm_num [dictGet, show ¬ sB = sA by decide])).2.2 10
    (by norm_num [dictGet]) (by norm_num)

/-! ## Canonical timeline (claim C3) -/

theorem all_times_sorted_lt (intraday_klines : List (String × List Kline)) :
    List.Sorted (· < ·) (all_times intraday_klines) := by
  unfold all_times
  have h1 := List.sorted_insertionSort (· ≤ ·)
    (((intraday_klines.map Prod.snd).flatten.map Kline.time).dedup)
  have h2 : (all_times intraday_klines).Nodup :=
    (List.perm_insertionSort (· ≤ ·) _).nodup_iff.mpr (List.nodup_dedup _)
  exact h1.lt_of_le h2

theorem mem_all_times (intraday_klines : List (String × List Kline)) (t : Time) :
    t ∈ all_times intraday_klines ↔
      ∃ entry ∈ intraday_klines, ∃ k ∈ entry.2, k.time = t := by
  unfold all_times
  simp only [List.mem_insertionSort, List.mem_dedup, List.mem_map, List.mem_flatten]
  constructor
  · rintro ⟨k, ⟨l, ⟨p, hp, rfl⟩, hk⟩, rfl⟩
    exact ⟨p, hp, k, hk, rfl⟩
  · rintro ⟨p, hp, k, hk, rfl⟩
    exact ⟨k, ⟨p.2, ⟨p, hp, rfl⟩, hk⟩, rfl⟩

/-- Claim C3: the output timestamps of `calculate_fund_valuation` are
exactly the canonical timeline: strictly ascending (hence one point per
distinct timestamp), and a timestamp appears iff it appears in some
security's intraday series (none invented, none dropped). -/
theorem calculate_fund_valuation_timeline (c : FundValuationCalculator)
    (intraday_klines : List (String × List Kline)) :
    (calculate_fund_valuation c intraday_klines).map ValuationPoint.time =
        all_times intraday_klines ∧
      List.Sorted (· < ·)
        ((calculate_fund_valuation c intraday_klines).map ValuationPoint.time) ∧
      ∀ t : Time,
        (t ∈ (calculate_fund_valuation c intraday_klines).map ValuationPoint.time ↔
          ∃ entry ∈ intraday_klines, ∃ k ∈ entry.2, k.time = t) := by
  have hmap : (calculate_fund_valuation c intraday_klines).map ValuationPoint.time =
      all_times intraday_klines := by
    unfold calculate_fund_valuation
    rw [List.map_map]
    exact List.map_id _
  refine ⟨hmap, ?_, fun t => ?_⟩
  · rw [hmap]
    exact all_times_sorted_lt intraday_klines
  · rw [hmap]
    exact mem_all_times intraday_klines t

/-! ## Forward-filled prices (claim C4) -/

/-- The spec's description of the price used for a keyed security at a
canonical timestamp, stated directly from its words: the price of the
security's sample at `t` if one exists, otherwise the price of its most
recent earlier sample (for a time-ordered series, the last sample with
time at most `t`), otherwise the fallback (previous close, or `0` if
unknown).  Compared against the code's `filled_prices` scan below. -/
def spec_price_at (klines : List Kline) (fallback : ℚ) (t : Time) : ℚ :=
  match (klines.filter fun k => decide (k.time ≤ t)).getLast? with
  | some k => k.price
  | none => fallback

theorem price_map_eq_none (klines : List Kline) (t : Time)
    (h : ∀ k ∈ klines, k.time ≠ t) : price_map klines t = none := by
  induction klines with
  | nil => rfl
  | cons k rest ih =>
      simp only [price_map]
      rw [ih fun x hx => h x (List.mem_cons_of_mem _ hx)]
      simp [h k (List.mem_cons_self k rest)]

theorem filled_prices_congr (pm₁ pm₂ : Time → Option ℚ) (cur : ℚ) (ts : List Time)
    (h : ∀ s ∈ ts, pm₁ s = pm₂ s) :
    filled_prices pm₁ cur ts = filled_prices pm₂ cur ts := by
  induction ts generalizing cur with
  | nil => rfl
  | cons t ts ih =>
      simp only [filled_prices]
      rw [h t (List.mem_cons_self t ts), ih _ fun s hs => h s (List.mem_cons_of_mem _ hs)]

theorem spec_price_at_cons_of_le (k0 : Kline) (krest : List Kline) (cur : ℚ) (t : Time)
    (h : k0.time ≤ t) :
    spec_price_at (k0 :: krest) cur t = spec_price_at krest k0.price t := by
  unfold spec_price_at
  rw [List.filter_cons_of_pos (by simpa using h)]
  cases hf : krest.filter fun k => decide (k.time ≤ t) with
  | nil => simp
  | cons a l =>
      rw [List.getLast?_cons_cons]
      cases hg : (a :: l).getLast? with
      | none => simp at hg
      | some x => rfl

theorem spec_price_at_of_all_gt (klines : List Kline) (cur : ℚ) (t : Time)
    (h : ∀ k ∈ klines, t < k.time) :
    spec_price_at klines cur t = cur := by
  unfold spec_price_at
  rw [List.filter_eq_nil_iff.mpr fun k hk => by simpa using not_le.mpr (h k hk)]
  rfl

theorem filled_prices_lookup_spec (ts : List Time) :
    ts.Pairwise (· < ·) →
      ∀ klines : List Kline, klines.Pairwise (fun a b => a.time < b.time) →
        (∀ k ∈ klines, k.time ∈ ts) → ∀ (cur : ℚ) (t : Time), t ∈ ts →
          dictGet (filled_prices (price_map klines) cur ts) t =
            some (spec_price_at klines cur t) := by
  induction ts with
  | nil => intro _ _ _ _ _ t ht; cases ht
  | cons t0 rest ih =>
      intro hts klines hksort hsub cur t ht
      obtain ⟨ht0, hrest⟩ := List.pairwise_cons.mp hts
      simp only [filled_prices, dictGet]
      by_cases het : t0 = t
      · subst het
        rw [if_pos rfl]
        cases klines with
        | nil => rfl
        | cons k0 krest =>
            have hk0mem := hsub k0 (List.mem_cons_self k0 krest)
            obtain ⟨hk0kr, hkrsort⟩ := List.pairwise_cons.mp hksort
            by_cases hk0 : k0.time = t0
            · have hkrest_gt : ∀ k ∈ krest, t0 < k.time := fun k hk => by
                rw [← hk0]; exact hk0kr k hk
              have hpm : price_map (k0 :: krest) t0 = some k0.price := by
                simp only [price_map,
                  price_map_eq_none krest t0 fun k hk => (hkrest_gt k hk).ne']
                rw [if_pos hk0]
              rw [hpm, spec_price_at_cons_of_le _ _ _ _ (le_of_eq hk0),
                spec_price_at_of_all_gt _ _ _ hkrest_gt]
              rfl
            · have hk0gt : t0 < k0.time := by
                rcases List.mem_cons.mp hk0mem with h | h
                · exact absurd h hk0
                · exact ht0 _ h
              have hallgt : ∀ k ∈ k0 :: krest, t0 < k.time := by
                intro k hk
                rcases List.mem_cons.mp hk with rfl | hk
                · exact hk0gt
                · exact lt_trans hk0gt (hk0kr k hk)
              rw [price_map_eq_none _ _ fun k hk => (hallgt k hk).ne',
                spec_price_at_of_all_gt _ _ _ hallgt]
              rfl
      · rw [if_neg het]
        have htrest : t ∈ rest := by
          rcases List.mem_cons.mp ht with rfl | h
          · exact absurd rfl het
          · exact h
        cases klines with
        | nil =>
            exact ih hrest [] List.Pairwise.nil
              (fun k hk => absurd hk (List.not_mem_nil k)) _ t htrest
        | cons k0 krest =>
            have hk0mem := hsub k0 (List.mem_cons_self k0 krest)
            obtain ⟨hk0kr, hkrsort⟩ := List.pairwise_cons.mp hksort
            by_cases hk0 : k0.time = t0
            · have hkrest_gt : ∀ k ∈ krest, t0 < k.time := fun k hk => by
                rw [← hk0]; exact hk0kr k hk
              have hpm : price_map (k0 :: krest) t0 = some k0.price := by
                simp only [price_map,
                  price_map_eq_none krest t0 fun k hk => (hkrest_gt k hk).ne']
                rw [if_pos hk0]
              rw [hpm, Option.getD_some]
              rw [filled_prices_congr (price_map (k0 :: krest)) (price_map krest) _ rest
                  fun s hs => by
                    have hne : k0.time ≠ s := by rw [hk0]; exact (ht0 s hs).ne
                    simp only [price_map]
                    cases h2 : price_map krest s <;> simp [h2, hne]]
              rw [ih hrest krest hkrsort
                  (fun k hk => by
                    have hmem := hsub k (List.mem_cons_of_mem _ hk)
                    rcases List.mem_cons.mp hmem with h | h
                    · exact absurd h (hkrest_gt k hk).ne'
                    · exact h)
                  k0.price t htrest,
                spec_price_at_cons_of_le _ _ _ _
                  (le_of_lt (by rw [hk0]; exact ht0 t htrest))]
            · have hk0gt : t0 < k0.time := by
                rcases List.mem_cons.mp hk0mem with h | h
                · exact absurd h hk0
                · exact ht0 _ h
              have hallgt : ∀ k ∈ k0 :: krest, t0 < k.time := by
                intro k hk
                rcases List.mem_cons.mp hk with rfl | hk
                · exact hk0gt
                · exact lt_trans hk0gt (hk0kr k hk)
              rw [price_map_eq_none _ _ fun k hk => (hallgt k hk).ne', Option.getD_none]
              exact ih hrest (k0 :: krest) hksort
                (fun k hk => by
                  have hmem := hsub k hk
                  rcases List.mem_cons.mp hmem with h | h
                  · exact absurd h (hallgt k hk).ne'
                  · exact h)
                cur t htrest

theorem dictGet_some_mem {κ α : Type} [DecidableEq κ] {l : List (κ × α)} {k : κ} {v : α}
    (h : dictGet l k = some v) : (k, v) ∈ l := by
  induction l with
  | nil => cases h
  | cons hd tl ih =>
      obtain ⟨k0, v0⟩ := hd
      by_cases hk : k0 = k
      · subst hk
        rw [dictGet, if_pos rfl] at h
        obtain rfl := Option.some_injective _ h
        exact List.mem_cons_self _ _
      · rw [dictGet, if_neg hk] at h
        exact List.mem_cons_of_mem _ (ih h)

theorem kline_time_mem_all_times {intraday_klines : List (String × List Kline)}
    {stock_code : String} {klines : List Kline}
    (h : dictGet intraday_klines stock_code = some klines) {k : Kline} (hk : k ∈ klines) :
    k.time ∈ all_times intraday_klines := by
  rw [mem_all_times]
  exact ⟨(stock_code, klines), dictGet_some_mem h, k, hk, rfl⟩

/-- Claim C4: for a security keyed in the intraday map with a time-ordered
sample series, the price used at every canonical timestamp `t` is the
price of its sample at `t` if one exists, otherwise that of its most
recent earlier sample, otherwise the previous close (`0` if unknown). -/
theorem price_at_forward_fill (c : FundValuationCalculator)
    (intraday_klines : List (String × List Kline)) (stock_code : String)
    (klines : List Kline) (t : Time)
    (hk : dictGet intraday_klines stock_code = some klines)
    (hsorted : klines.Pairwise fun a b => a.time < b.time)
    (ht : t ∈ all_times intraday_klines) :
    price_at c intraday_klines stock_code t =
      spec_price_at klines ((dictGet c.prev_close_dict stock_code).getD 0) t := by
  unfold price_at
  rw [dictGet_stock_price_map, hk, Option.map_some', Option.getD_some]
  unfold stock_filled_prices
  rw [filled_prices_lookup_spec (all_times intraday_klines)
      (all_times_sorted_lt intraday_klines) klines hsorted
      (fun k hkk => kline_time_mem_all_times hk hkk) _ t ht,
    Option.getD_some]

/-- Witness for claim C4: security `A` has samples at times `1` and `3`,
security `B` one at time `2`; at the canonical time `2`, `A`'s price is
carried forward from its sample at time `1`. -/
theorem price_at_forward_fill_witness :
    price_at ⟨[], [(sA, 7)], 0⟩ [(sA, [⟨1, 11⟩, ⟨3, 12⟩]), (sB, [⟨2, 5⟩])] sA 2 =
      spec_price_at [⟨1, 11⟩, ⟨3, 12⟩] ((dictGet [(sA, 7)] sA).getD 0) 2 :=
  price_at_forward_fill ⟨[], [(sA, 7)], 0⟩ [(sA, [⟨1, 11⟩, ⟨3, 12⟩]), (sB, [⟨2, 5⟩])]
    sA [⟨1, 11⟩, ⟨3, 12⟩] 2 (by rw [dictGet, if_pos rfl]) (by decide) (by decide)

/-! ## Scale invariance of holdings weights (claim C6) -/

/-- Claim C6: multiplying every holding weight by `k > 0` (total weight
strictly positive, all other inputs fixed) leaves every output valuation
value unchanged: the scale factor divides by the same scaled total. -/
theorem calculate_fund_valuation_scale_invariance
    (holdings_data : List Holding) (prev_close_dict : List (String × ℚ))
    (stock_position_ratio : ℚ) (intraday_klines : List (String × List Kline)) (k : ℚ)
    (hk : 0 < k)
    (hw : 0 < total_holdings ⟨holdings_data, prev_close_dict, stock_position_ratio⟩) :
    calculate_fund_valuation
        ⟨holdings_data.map fun row => ⟨row.stock_code, k * row.holding_ratio⟩,
          prev_close_dict, stock_position_ratio⟩ intraday_klines =
      calculate_fund_valuation ⟨holdings_data, prev_close_dict, stock_position_ratio⟩
        intraday_klines := by
  set c : FundValuationCalculator := ⟨holdings_data, prev_close_dict, stock_position_ratio⟩
  set cs : FundValuationCalculator :=
    ⟨holdings_data.map fun row => ⟨row.stock_code, k * row.holding_ratio⟩,
      prev_close_dict, stock_position_ratio⟩
  have htot : total_holdings cs = k * total_holdings c := by
    simp only [total_holdings, cs, c, List.map_map, Function.comp_def]
    exact List.sum_map_mul_left _ _ _
  have hsfs : scale_factor cs = stock_position_ratio / (k * total_holdings c) := by
    unfold scale_factor
    rw [htot, if_pos (mul_pos hk hw)]
  have hsf : scale_factor c = stock_position_ratio / total_holdings c := by
    unfold scale_factor
    rw [if_pos hw]
  have hret : ∀ (code : String) (t : Time),
      calculate_stock_return cs code (price_at cs intraday_klines code t) =
        calculate_stock_return c code (price_at c intraday_klines code t) :=
    fun _ _ => rfl
  unfold calculate_fund_valuation
  refine List.map_congr_left fun t _ => ?_
  have hwr : weighted_return_at cs intraday_klines t = weighted_return_at c intraday_klines t := by
    have hproj : cs.holdings_data =
        holdings_data.map fun row => ⟨row.stock_code, k * row.holding_ratio⟩ := rfl
    have hproj2 : c.holdings_data = holdings_data := rfl
    unfold weighted_return_at
    rw [hproj, hproj2, List.foldl_map]
    refine List.foldl_ext _ _ _ fun acc row _ => ?_
    unfold security_contribution
    rw [hret row.stock_code t, hsfs, hsf]
    have hkne : k ≠ 0 := ne_of_gt hk
    have htne : total_holdings c ≠ 0 := ne_of_gt hw
    field_simp
    ring
  rw [hwr]

/-- Witness for claim C6: doubling the single holding's weight leaves the
valuation series unchanged. -/
theorem calculate_fund_valuation_scale_invariance_witness :
    calculate_fund_valuation
        ⟨([⟨sA, 60⟩] : List Holding).map fun row => ⟨row.stock_code, 2 * row.holding_ratio⟩,
          [(sA, 10)], 50⟩ [(sA, [⟨1, 11⟩])] =
      calculate_fund_valuation ⟨[⟨sA, 60⟩], [(sA, 10)], 50⟩ [(sA, [⟨1, 11⟩])] :=
  calculate_fund_valuation_scale_invariance [⟨sA, 60⟩] [(sA, 10)] 50 [(sA, [⟨1, 11⟩])] 2
    (by norm_num) (by norm_num [total_holdings])

/-! ## Worked scenario (claim C9) -/

/-- Claim C9: holdings `[(A, 60), (B, 40)]`, previous closes
`{A: 10, B: 20}`, position ratio `50`, samples `A: [(1, 11)]`,
`B: [(1, 19)]` give exactly one point, at time `1`, of value `2.0`. -/
theorem calculate_fund_valuation_scenario :
    calculate_fund_valuation ⟨[⟨sA, 60⟩, ⟨sB, 40⟩], [(sA, 10), (sB, 20)], 50⟩
        [(sA, [⟨1, 11⟩]), (sB, [⟨1, 19⟩])] = [⟨1, 2⟩] := by
  have hAB : ¬ sA = sB := by decide
  have hBA : ¬ sB = sA := by decide
  have ht : all_times [(sA, [⟨1, (11 : ℚ)⟩]), (sB, [⟨1, 19⟩])] = [1] := by decide
  unfold calculate_fund_valuation
  rw [ht, List.map_cons, List.map_nil]
  have hw : weighted_return_at ⟨[⟨sA, 60⟩, ⟨sB, 40⟩], [(sA, 10), (sB, 20)], 50⟩
      [(sA, [⟨1, 11⟩]), (sB, [⟨1, 19⟩])] 1 = 2 := by
    simp only [weighted_return_at, List.foldl_cons, List.foldl_nil]
    norm_num [security_contribution, price_at, stock_price_map, stock_filled_prices,
      filled_prices, price_map, dictGet, calculate_stock_return, scale_factor,
      total_holdings, ht, hAB, hBA]
  rw [hw]
  norm_num [round4, round_half_even]

/-! ## Summary statistics (claims C5 and C10) -/

theorem foldl_max_bounds (x : ℚ) (xs : List ℚ) :
    x ≤ xs.foldl max x ∧ ∀ y ∈ xs, y ≤ xs.foldl max x := by
  induction xs generalizing x with
  | nil => exact ⟨le_refl x, fun y hy => absurd hy (List.not_mem_nil y)⟩
  | cons a xs ih =>
      obtain ⟨h1, h2⟩ := ih (max x a)
      simp only [List.foldl_cons]
      refine ⟨le_trans (le_max_left x a) h1, fun y hy => ?_⟩
      rcases List.mem_cons.mp hy with rfl | hy
      · exact le_trans (le_max_right x y) h1
      · exact h2 y hy

theorem foldl_max_mem (x : ℚ) (xs : List ℚ) : xs.foldl max x ∈ x :: xs := by
  induction xs generalizing x with
  | nil => exact List.mem_cons_self x []
  | cons a xs ih =>
      simp only [List.foldl_cons]
      rcases List.mem_cons.mp (ih (max x a)) with h | h
      · rcases max_choice x a with h2 | h2
        · rw [h, h2]
          exact List.mem_cons_self _ _
        · rw [h, h2]
          exact List.mem_cons_of_mem _ (List.mem_cons_self _ _)
      · exact List.mem_cons_of_mem _ (List.mem_cons_of_mem _ h)

theorem foldl_min_bounds (x : ℚ) (xs : List ℚ) :
    xs.foldl min x ≤ x ∧ ∀ y ∈ xs, xs.foldl min x ≤ y := by
  induction xs generalizing x with
  | nil => exact ⟨le_refl x, fun y hy => absurd hy (List.not_mem_nil y)⟩
  | cons a xs ih =>
      obtain ⟨h1, h2⟩ := ih (min x a)
      simp only [List.foldl_cons]
      refine ⟨le_trans h1 (min_le_left x a), fun y hy => ?_⟩
      rcases List.mem_cons.mp hy with rfl | hy
      · exact le_trans h1 (min_le_right x y)
      · exact h2 y hy

theorem foldl_min_mem (x : ℚ) (xs : List ℚ) : xs.foldl min x ∈ x :: xs := by
  induction xs generalizing x with
  | nil => exact List.mem_cons_self x []
  | cons a xs ih =>
      simp only [List.foldl_cons]
      rcases List.mem_cons.mp (ih (min x a)) with h | h
      · rcases min_choice x a with h2 | h2
        · rw [h, h2]
          exact List.mem_cons_self _ _
        · rw [h, h2]
          exact List.mem_cons_of_mem _ (List.mem_cons_self _ _)
      · exact List.mem_cons_of_mem _ (List.mem_cons_of_mem _ h)

theorem getLastD_map_cons (f : ValuationPoint → ℚ) (p : ValuationPoint)
    (ps : List ValuationPoint) :
    (ps.map f).getLastD (f p) = f ((p :: ps).getLast (List.cons_ne_nil p ps)) := by
  induction ps generalizing p with
  | nil => rfl
  | cons q ps ih =>
      rw [List.map_cons, List.getLastD_cons, ih q, List.getLast_cons (List.cons_ne_nil q ps)]

theorem findIdx_first_occurrence (v : ℚ) (data : List ValuationPoint)
    (hmem : v ∈ data.map ValuationPoint.valuation_change) (d : ValuationPoint) :
    ∃ i, ∃ hi : i < data.length,
      data.get ⟨i, hi⟩ =
          data.getD ((data.map ValuationPoint.valuation_change).findIdx fun x => x == v) d ∧
        (data.get ⟨i, hi⟩).valuation_change = v ∧
        ∀ j (hj : j < i), (data.get ⟨j, lt_trans hj hi⟩).valuation_change ≠ v := by
  have hex : ∃ x ∈ data.map ValuationPoint.valuation_change, (x == v) = true :=
    ⟨v, hmem, beq_self_eq_true v⟩
  have hlt := List.findIdx_lt_length_of_exists hex
  rw [List.length_map] at hlt
  refine ⟨(data.map ValuationPoint.valuation_change).findIdx (fun x => x == v), hlt, ?_, ?_, ?_⟩
  · rw [List.get_eq_getElem, List.getD_eq_getElem data d hlt]
  · have hp : ((data.map ValuationPoint.valuation_change).findIdx fun x => x == v) <
        (data.map ValuationPoint.valuation_change).length := by
      rw [List.length_map]
      exact hlt
    have := List.findIdx_getElem (w := hp)
    rw [List.getElem_map] at this
    rw [List.get_eq_getElem]
    exact beq_iff_eq.mp this
  · intro j hj heq
    have hfalse := List.not_of_lt_findIdx hj
    rw [List.getElem_map] at hfalse
    rw [List.get_eq_getElem] at heq
    rw [heq] at hfalse
    rw [beq_self_eq_true v] at hfalse
    cases hfalse

/-- Unfolding of `get_summary_stats` on a non-empty series. -/
theorem get_summary_stats_cons (p : ValuationPoint) (ps : List ValuationPoint) :
    get_summary_stats (p :: ps) =
      some
        { current := (ps.map ValuationPoint.valuation_change).getLastD p.valuation_change
          max := (ps.map ValuationPoint.valuation_change).foldl max p.valuation_change
          min := (ps.map ValuationPoint.valuation_change).foldl min p.valuation_change
          max_time :=
            ((p :: ps).getD
                (((p :: ps).map ValuationPoint.valuation_change).findIdx fun x =>
                  x == (ps.map ValuationPoint.valuation_change).foldl max p.valuation_change)
                p).time
          min_time :=
            ((p :: ps).getD
                (((p :: ps).map ValuationPoint.valuation_change).findIdx fun x =>
                  x == (ps.map ValuationPoint.valuation_change).foldl min p.valuation_change)
                p).time } := rfl

/-- The full characterisation of `get_summary_stats` on a non-empty
series: current is the last value, max/min are attained extrema, and
max_time/min_time are times of the first point attaining them. -/
theorem summary_stats_spec (p : ValuationPoint) (ps : List ValuationPoint)
    (st : SummaryStats) (h : get_summary_stats (p :: ps) = some st) :
    st.current = ((p :: ps).getLast (List.cons_ne_nil p ps)).valuation_change ∧
      (∀ q ∈ p :: ps, q.valuation_change ≤ st.max) ∧
      st.max ∈ (p :: ps).map ValuationPoint.valuation_change ∧
      (∀ q ∈ p :: ps, st.min ≤ q.valuation_change) ∧
      st.min ∈ (p :: ps).map ValuationPoint.valuation_change ∧
      (∃ i, ∃ hi : i < (p :: ps).length,
        ((p :: ps).get ⟨i, hi⟩).time = st.max_time ∧
          ((p :: ps).get ⟨i, hi⟩).valuation_change = st.max ∧
          ∀ j (hj : j < i), ((p :: ps).get ⟨j, lt_trans hj hi⟩).valuation_change ≠ st.max) ∧
      ∃ i, ∃ hi : i < (p :: ps).length,
        ((p :: ps).get ⟨i, hi⟩).time = st.min_time ∧
          ((p :: ps).get ⟨i, hi⟩).valuation_change = st.min ∧
          ∀ j (hj : j < i), ((p :: ps).get ⟨j, lt_trans hj hi⟩).valuation_change ≠ st.min := by
  rw [get_summary_stats_cons] at h
  obtain rfl : _ = st := (Option.some_injective _ h)
  refine ⟨?_, ?_, ?_, ?_, ?_, ?_, ?_⟩
  · exact getLastD_map_cons ValuationPoint.valuation_change p ps
  · intro q hq
    obtain ⟨h1, h2⟩ := foldl_max_bounds p.valuation_change
      (ps.map ValuationPoint.valuation_change)
    rcases List.mem_cons.mp hq with rfl | hq
    · exact h1
    · exact h2 _ (List.mem_map_of_mem ValuationPoint.valuation_change hq)
  · rw [List.map_cons]
    exact foldl_max_mem _ _
  · intro q hq
    obtain ⟨h1, h2⟩ := foldl_min_bounds p.valuation_change
      (ps.map ValuationPoint.valuation_change)
    rcases List.mem_cons.mp hq with rfl | hq
    · exact h1
    · exact h2 _ (List.mem_map_of_mem ValuationPoint.valuation_change hq)
  · rw [List.map_cons]
    exact foldl_min_mem _ _
  · have hmem : (ps.map ValuationPoint.valuation_change).foldl max p.valuation_change ∈
        (p :: ps).map ValuationPoint.valuation_change := by
      rw [List.map_cons]
      exact foldl_max_mem _ _
    obtain ⟨i, hi, heq, hval, hprev⟩ := findIdx_first_occurrence _ (p :: ps) hmem p
    exact ⟨i, hi, by rw [heq], hval, hprev⟩
  · have hmem : (ps.map ValuationPoint.valuation_change).foldl min p.valuation_change ∈
        (p :: ps).map ValuationPoint.valuation_change := by
      rw [List.map_cons]
      exact foldl_min_mem _ _
    obtain ⟨i, hi, heq, hval, hprev⟩ := findIdx_first_occurrence _ (p :: ps) hmem p
    exact ⟨i, hi, by rw [heq], hval, hprev⟩

/-- The spec's tie-break example evaluated:
series `[(1, 5), (2, 9), (3, 9), (4, 2)]` gives current `2`, max `9` at
time `2` (first occurrence), min `2` at time `4`. -/
theorem get_summary_stats_tie_break :
    get_summary_stats [⟨1, 5⟩, ⟨2, 9⟩, ⟨3, 9⟩, ⟨4, 2⟩] = some ⟨2, 9, 2, 2, 4⟩ := by
  have h59 : ((5 : ℚ) == 9) = false := by
    rw [beq_eq_false_iff_ne]
    norm_num
  have h99 : ((9 : ℚ) == 9) = true := beq_self_eq_true 9
  have h52 : ((5 : ℚ) == 2) = false := by
    rw [beq_eq_false_iff_ne]
    norm_num
  have h92 : ((9 : ℚ) == 2) = false := by
    rw [beq_eq_false_iff_ne]
    norm_num
  rw [get_summary_stats_cons]
  norm_num [List.findIdx_cons, max_def, min_def, h59, h99, h52, h92,
    List.getD_cons_zero, List.getD_cons_succ]

/-- Claim C5: on a non-empty series the stats are: current = last value,
max/min = attained extrema, max_time/min_time = timestamp of the first
point attaining the extremum; and on the spec's tie-break series
`[(t1,5),(t2,9),(t3,9),(t4,2)]` the result is max `9` at `t2`. -/
theorem get_summary_stats_correct (p : ValuationPoint) (ps : List ValuationPoint)
    (st : SummaryStats) (h : get_summary_stats (p :: ps) = some st) :
    (st.current = ((p :: ps).getLast (List.cons_ne_nil p ps)).valuation_change ∧
      (∀ q ∈ p :: ps, q.valuation_change ≤ st.max) ∧
      st.max ∈ (p :: ps).map ValuationPoint.valuation_change ∧
      (∀ q ∈ p :: ps, st.min ≤ q.valuation_change) ∧
      st.min ∈ (p :: ps).map ValuationPoint.valuation_change ∧
      (∃ i, ∃ hi : i < (p :: ps).length,
        ((p :: ps).get ⟨i, hi⟩).time = st.max_time ∧
          ((p :: ps).get ⟨i, hi⟩).valuation_change = st.max ∧
          ∀ j (hj : j < i), ((p :: ps).get ⟨j, lt_trans hj hi⟩).valuation_change ≠ st.max) ∧
      ∃ i, ∃ hi : i < (p :: ps).length,
        ((p :: ps).get ⟨i, hi⟩).time = st.min_time ∧
          ((p :: ps).get ⟨i, hi⟩).valuation_change = st.min ∧
          ∀ j (hj : j < i), ((p :: ps).get ⟨j, lt_trans hj hi⟩).valuation_change ≠ st.min) ∧
      get_summary_stats [⟨1, 5⟩, ⟨2, 9⟩, ⟨3, 9⟩, ⟨4, 2⟩] = some ⟨2, 9, 2, 2, 4⟩ :=
  ⟨summary_stats_spec p ps st h, get_summary_stats_tie_break⟩

/-- Witness for claim C5 on the tie-break series. -/
theorem get_summary_stats_correct_witness :
    (⟨2, 9, 2, 2, 4⟩ : SummaryStats).current =
      (([⟨1, 5⟩, ⟨2, 9⟩, ⟨3, 9⟩, ⟨4, 2⟩] : List ValuationPoint).getLast
          (List.cons_ne_nil _ _)).valuation_change :=
  (get_summary_stats_correct ⟨1, 5⟩ [⟨2, 9⟩, ⟨3, 9⟩, ⟨4, 2⟩] ⟨2, 9, 2, 2, 4⟩
      get_summary_stats_tie_break).1.1

/-- Claim C10: on a non-empty series min ≤ current ≤ max, and
max_time/min_time are timestamps of points actually in the series. -/
theorem summary_stats_invariants (p : ValuationPoint) (ps : List ValuationPoint)
    (st : SummaryStats) (h : get_summary_stats (p :: ps) = some st) :
    st.min ≤ st.current ∧ st.current ≤ st.max ∧
      st.max_time ∈ (p :: ps).map ValuationPoint.time ∧
      st.min_time ∈ (p :: ps).map ValuationPoint.time := by
  obtain ⟨hcur, hmax, _, hmin, _, ⟨i, hi, hti, _, _⟩, ⟨i2, hi2, hti2, _, _⟩⟩ :=
    summary_stats_spec p ps st h
  have hlast := List.getLast_mem (List.cons_ne_nil p ps)
  refine ⟨?_, ?_, ?_, ?_⟩
  · rw [hcur]
    exact hmin _ hlast
  · rw [hcur]
    exact hmax _ hlast
  · exact List.mem_map.mpr ⟨(p :: ps).get ⟨i, hi⟩, List.get_mem _ _ _, hti⟩
  · exact List.mem_map.mpr ⟨(p :: ps).get ⟨i2, hi2⟩, List.get_mem _ _ _, hti2⟩

/-- Witness for claim C10 on the tie-break series. -/
theorem summary_stats_invariants_witness :
    (⟨2, 9, 2, 2, 4⟩ : SummaryStats).min ≤ (⟨2, 9, 2, 2, 4⟩ : SummaryStats).current :=
  (summary_stats_invariants ⟨1, 5⟩ [⟨2, 9⟩, ⟨3, 9⟩, ⟨4, 2⟩] ⟨2, 9, 2, 2, 4⟩
      get_summary_stats_tie_break).1
